import Mathlib

/-!
# Throbac string primitives (`C/throbac.c`)

A shallow embedding of the three runtime functions `__throbac_cat`,
`stringlength` and `substring`, and theorems about them.

Conventions of the embedding
* A `char` is a natural number; the terminator is `0`.
* A `char*` argument is the list of the bytes of its object from the pointer
  onwards. Advancing the pointer is taking the tail; reading where no byte is
  left is an access outside the object (undefined behaviour).
* `int` is 32 bits wide and two's complement: an `int` that is computed and
  kept, the counter of `stringlength` and the sum `start + length` of line 87,
  is reduced by `wrapInt`. The difference in `start > (strLen - 1)` at line 83
  is never kept: the comparison is taken on the exact values, as the compiled
  program takes it (`start >= strLen`). `size_t` is 64 bits wide; the only
  `size_t` arithmetic is the sum of the lengths of two objects held in memory
  together with `1`, which stays below `2 ^ 64`, so it is exact.
* `malloc` is a function of a `Heap`, which says which requests are granted
  and with what (indeterminate) bytes a fresh block is filled.
* The two allocating functions are also given on a `Memory` that holds every
  object, with each read and write addressed by a `Pointer`; the two forms are
  proved to agree (`throbac_cat_mem_eq`, `substring_mem_eq`).
-/

namespace Throbac

/-! ## Machine model -/

/-- The least value of an `int`. -/
def INT_MIN : Int := -2147483648

/-- The greatest value of an `int`. -/
def INT_MAX : Int := 2147483647

/-- Reduction of a mathematical integer to the `int` it is stored as
(two's complement, 32 bits). -/
def wrapInt (x : Int) : Int := (x + 2147483648) % 4294967296 - 2147483648

/-- How a call ends. -/
inductive Outcome (α : Type) where
  /-- The call returned the value. -/
  | ret (v : α)
  /-- The process was ended by `abort()`. -/
  | abort
  /-- Undefined behaviour: an access outside an object or through `NULL`. -/
  | undefined
  deriving DecidableEq

/-- The allocator's state as far as `malloc` depends on it. -/
structure Heap where
  /-- Whether a request for that many bytes is granted. -/
  grants : Nat → Bool
  /-- The byte found at each offset of a fresh block. -/
  junk : Nat → Nat

/-- A heap on which every request is granted. -/
def Heap.ample (junk : Nat → Nat) : Heap := ⟨fun _ => true, junk⟩

/-- C library `malloc`: `none` is `NULL`, otherwise a fresh block of exactly
`n` bytes of indeterminate content. -/
def malloc (h : Heap) (n : Nat) : Option (List Nat) :=
  if h.grants n then some ((List.range n).map h.junk) else none

/-- C library `strlen`: the number of bytes before the first terminator. -/
def strlen : List Nat → Option Nat
  | [] => none
  | c :: rest => if c = 0 then some 0 else (strlen rest).map (· + 1)

/-- Copy of the string at `src`, terminator included, into block `dst` from
offset `k` on: the byte loop shared by `strcpy` and `strcat`. -/
def copyStr : List Nat → List Nat → Nat → Option (List Nat)
  | [], _, _ => none
  | c :: rest, dst, k =>
    if k < dst.length then
      if c = 0 then some (dst.set k 0) else copyStr rest (dst.set k c) (k + 1)
    else none

/-- C library `strcpy(dst, src)`; the result is the block `dst` afterwards. -/
def strcpy (dst src : List Nat) : Option (List Nat) := copyStr src dst 0

/-- C library `strcat(dst, src)`; the result is the block `dst` afterwards. -/
def strcat (dst src : List Nat) : Option (List Nat) :=
  match strlen dst with
  | none => none
  | some k => copyStr src dst k

/-! ## The three functions of `throbac.c` -/

/-- The function `char *__throbac_cat(char *first, char *second)`, lines 16-24. The value
returned is the block that `value` points to. -/
def __throbac_cat (h : Heap) (first second : List Nat) : Outcome (List Nat) :=
  match strlen first, strlen second with
  | some n1, some n2 =>
    let length := n1 + n2 + 1
    match malloc h length with
    | none => .abort
    | some value =>
      match strcpy value first with
      | none => .undefined
      | some value1 =>
        match strcat value1 second with
        | none => .undefined
        | some value2 => .ret value2
  | _, _ => .undefined

/-- The `while (*str)` loop of `stringlength`, lines 43-46: the first argument
is the pointer `str`, the second is `counter`. -/
def stringlengthLoop : List Nat → Int → Option Int
  | [], _ => none
  | c :: rest, counter =>
    if c ≠ 0 then stringlengthLoop rest (wrapInt (counter + 1)) else some counter

/-- The function `int stringlength(char* str)`, lines 38-51; `none` when the scan leaves the
object. -/
def stringlength (str : List Nat) : Option Int := stringlengthLoop str 0

/-- The text printed at line 78. -/
def NegativeArgument : String := "\nERROR: Inputted values can't be negative."

/-- The text printed at line 84. -/
def StartOutOfRange : String := "\nERROR: Inputted start index larger than string length."

/-- The text printed at line 88. -/
def RangeExceedsLength : String :=
  "\nERROR: Inputted start index and length exceeds string length."

/-- The `for` loop of `substring`, lines 98-102. Arguments: the number of
iterations still to run, the pointer `str`, the block `subStr` points into and
the offset of `subStr` in it. -/
def copyLoop : Nat → List Nat → List Nat → Nat → Option (List Nat × Nat)
  | 0, _, blk, k => some (blk, k)
  | _ + 1, [], _, _ => none
  | n + 1, c :: rest, blk, k =>
    if k < blk.length then copyLoop n rest (blk.set k c) (k + 1) else none

/-- What `substring` hands back: the text it printed and the pointer it
returned (`none` is `NULL`, otherwise the bytes of the block pointed to). -/
abbrev SubstringReturn := String × Option (List Nat)

/-- The function `char* substring(char* str, int start, int length)`, lines 71-108.
The first two checks compare exact values, the third compares the `int` sum
`start + length`; past them `malloc` is asked for `length + 1` bytes, and its
result is used unchecked. -/
def substring (h : Heap) (str : List Nat) (start length : Int) :
    Outcome SubstringReturn :=
  match stringlength str with
  | none => .undefined
  | some strLen =>
    if start < 0 ∨ length < 0 then .ret (NegativeArgument, none)
    else if start > strLen - 1 then .ret (StartOutOfRange, none)
    else if wrapInt (start + length) > strLen then .ret (RangeExceedsLength, none)
    else
      match malloc h (length.toNat + 1) with
      | none => .undefined
      | some subStr =>
        match copyLoop length.toNat (str.drop start.toNat) subStr 0 with
        | none => .undefined
        | some (blk, k) =>
          if k < blk.length then .ret ("", some (blk.set k 0)) else .undefined

/-! ## Vocabulary of the specification -/

/-- A buffer holds a string when a terminator occurs in it. -/
def Terminated (str : List Nat) : Prop := 0 ∈ str

instance (str : List Nat) : Decidable (Terminated str) := by
  unfold Terminated; infer_instance

/-- The content of a string: its elements before the first terminator. -/
def content (str : List Nat) : List Nat := str.takeWhile (· ≠ 0)

/-- The elements `str[start], ..., str[start + len - 1]` in order. -/
def slice (str : List Nat) (start len : Nat) : List Nat := (str.drop start).take len

/-- The buffer of the string literal with the given elements. -/
def lit (s : List Nat) : List Nat := s ++ [0]

/-- The literal `"hello"`. -/
def hello : List Nat := lit [104, 101, 108, 108, 111]

/-- The literal `"abc"`. -/
def abc : List Nat := lit [97, 98, 99]

/-- A string of `n` letters `A`. -/
def letters (n : Nat) : List Nat := lit (List.replicate n 65)

/-! ## The allocating functions on a memory of objects

The definitions above take the bytes a pointer sees and return the bytes of
the block they allocate. Those below run the same statements on a memory that
holds every object, so that a write could reach any of them. -/

/-- The objects allocated so far, in order of allocation, each as its bytes. -/
abbrev Memory := List (List Nat)

/-- A pointer into an object: the index of the object and the offset in it. -/
structure Pointer where
  /-- The index of the object in the memory. -/
  obj : Nat
  /-- The offset in the object. -/
  off : Nat
  deriving DecidableEq

/-- The pointer `p + n`. -/
def Pointer.add (p : Pointer) (n : Nat) : Pointer := ⟨p.obj, p.off + n⟩

/-- The pointer `p - n`. -/
def Pointer.sub (p : Pointer) (n : Nat) : Pointer := ⟨p.obj, p.off - n⟩

/-- The read `*p`; `none` outside an object. -/
def load (m : Memory) (p : Pointer) : Option Nat :=
  match m[p.obj]? with
  | none => none
  | some blk => blk[p.off]?

/-- The write `*p = c`; `none` outside an object. -/
def store (m : Memory) (p : Pointer) (c : Nat) : Option Memory :=
  match m[p.obj]? with
  | none => none
  | some blk => if p.off < blk.length then some (m.set p.obj (blk.set p.off c)) else none

/-- The bytes of the object of `p` from `p` onwards: what a function that only
reads through `p` can see. -/
def view (m : Memory) (p : Pointer) : Option (List Nat) :=
  match m[p.obj]? with
  | none => none
  | some blk => some (blk.drop p.off)

/-- The call `malloc(n)` in a memory: a granted block becomes a new object,
after all the others, and the pointer is to its first byte. -/
def mallocMem (h : Heap) (m : Memory) (n : Nat) : Option (Memory × Pointer) :=
  match malloc h n with
  | none => none
  | some blk => some (m ++ [blk], ⟨m.length, 0⟩)

/-- The call `strlen(p)` in a memory. -/
def strlenMem (m : Memory) (p : Pointer) : Option Nat :=
  match view m p with
  | none => none
  | some bytes => strlen bytes

/-- The byte loop of `strcpy` and `strcat` in a memory: read at `src`, write at
`dst`, stop after the terminator. The first argument bounds the number of
iterations. -/
def copyStrMem : Nat → Memory → Pointer → Pointer → Option Memory
  | 0, _, _, _ => none
  | fuel + 1, m, src, dst =>
    match load m src with
    | none => none
    | some c =>
      match store m dst c with
      | none => none
      | some m1 => if c = 0 then some m1 else copyStrMem fuel m1 (src.add 1) (dst.add 1)

/-- A number of iterations that the byte loop cannot reach from `src`: one more
than the bytes left in the object of `src`. -/
def copyFuel (m : Memory) (src : Pointer) : Nat :=
  match view m src with
  | none => 0
  | some bytes => bytes.length + 1

/-- The call `strcpy(dst, src)` in a memory. -/
def strcpyMem (m : Memory) (dst src : Pointer) : Option Memory :=
  copyStrMem (copyFuel m src) m src dst

/-- The call `strcat(dst, src)` in a memory. -/
def strcatMem (m : Memory) (dst src : Pointer) : Option Memory :=
  match strlenMem m dst with
  | none => none
  | some k => copyStrMem (copyFuel m src) m src (dst.add k)

/-- The function `__throbac_cat`, lines 16-24, in a memory: the memory
afterwards and the pointer returned. -/
def __throbac_cat_mem (h : Heap) (m : Memory) (first second : Pointer) :
    Outcome (Memory × Pointer) :=
  match strlenMem m first, strlenMem m second with
  | some n1, some n2 =>
    let length := n1 + n2 + 1
    match mallocMem h m length with
    | none => .abort
    | some (m0, value) =>
      match strcpyMem m0 value first with
      | none => .undefined
      | some m1 =>
        match strcatMem m1 value second with
        | none => .undefined
        | some m2 => .ret (m2, value)
  | _, _ => .undefined

/-- The `for` loop of `substring`, lines 98-102, in a memory. Arguments: the
number of iterations still to run, the memory, `str` and `subStr`. -/
def copyLoopMem : Nat → Memory → Pointer → Pointer → Option (Memory × Pointer)
  | 0, m, _, subStr => some (m, subStr)
  | n + 1, m, str, subStr =>
    match load m str with
    | none => none
    | some c =>
      match store m subStr c with
      | none => none
      | some m1 => copyLoopMem n m1 (str.add 1) (subStr.add 1)

/-- The function `substring`, lines 71-108, in a memory: the memory afterwards,
the text printed and the pointer returned (`none` is `NULL`). -/
def substring_mem (h : Heap) (m : Memory) (str : Pointer) (start length : Int) :
    Outcome (Memory × String × Option Pointer) :=
  match view m str with
  | none => .undefined
  | some bytes =>
    match stringlength bytes with
    | none => .undefined
    | some strLen =>
      if start < 0 ∨ length < 0 then .ret (m, NegativeArgument, none)
      else if start > strLen - 1 then .ret (m, StartOutOfRange, none)
      else if wrapInt (start + length) > strLen then .ret (m, RangeExceedsLength, none)
      else
        match mallocMem h m (length.toNat + 1) with
        | none => .undefined
        | some (m0, subStr) =>
          match copyLoopMem length.toNat m0 (str.add start.toNat) subStr with
          | none => .undefined
          | some (m1, subStr1) =>
            match store m1 subStr1 0 with
            | none => .undefined
            | some m2 => .ret (m2, "", some (subStr1.sub length.toNat))

/-- The outcome in a memory `m` that corresponds to an outcome of
`__throbac_cat` on bytes: the block returned is the one new object. -/
def catInMemory (m : Memory) : Outcome (List Nat) → Outcome (Memory × Pointer)
  | .ret blk => .ret (m ++ [blk], ⟨m.length, 0⟩)
  | .abort => .abort
  | .undefined => .undefined

/-- The outcome in a memory `m` that corresponds to an outcome of `substring`
on bytes: with `NULL` the memory is as before, otherwise the block returned is
the one new object. -/
def substringInMemory (m : Memory) :
    Outcome SubstringReturn → Outcome (Memory × String × Option Pointer)
  | .ret (msg, none) => .ret (m, msg, none)
  | .ret (msg, some blk) => .ret (m ++ [blk], msg, some ⟨m.length, 0⟩)
  | .abort => .abort
  | .undefined => .undefined

/-- A memory of two objects: `"hello"` and `"abc"`. -/
def twoStrings : Memory := [hello, abc]

/-! ## Arithmetic of `int` -/

theorem wrapInt_of_range (x : Int) (hlo : INT_MIN ≤ x) (hhi : x ≤ INT_MAX) :
    wrapInt x = x := by
  unfold INT_MIN at hlo
  unfold INT_MAX at hhi
  unfold wrapInt
  omega

theorem wrapInt_succ (a : Int) : wrapInt (wrapInt a + 1) = wrapInt (a + 1) := by
  unfold wrapInt
  omega

theorem wrapInt_range (x : Int) : INT_MIN ≤ wrapInt x ∧ wrapInt x ≤ INT_MAX := by
  unfold wrapInt INT_MIN INT_MAX
  omega

/-- A non-negative number that wraps to a positive `int` is at least that `int`. -/
theorem le_of_wrapInt_pos (n : Nat) (h : 0 ≤ wrapInt n) : wrapInt n ≤ n := by
  unfold wrapInt at *
  omega

/-! ## Strings and their content -/

theorem content_nil : content [] = [] := rfl

theorem content_cons_zero (rest : List Nat) : content (0 :: rest) = [] := by
  simp [content]

theorem content_cons_ne (c : Nat) (rest : List Nat) (hc : c ≠ 0) :
    content (c :: rest) = c :: content rest := by
  simp [content, hc]

theorem terminated_cons_ne (c : Nat) (rest : List Nat) (hc : c ≠ 0) :
    Terminated (c :: rest) ↔ Terminated rest := by
  simp [Terminated, Ne.symm hc]

theorem not_terminated_nil : ¬ Terminated [] := by
  simp [Terminated]

/-- No element of the content is a terminator. -/
theorem zero_not_mem_content (str : List Nat) : 0 ∉ content str := by
  intro h
  have := List.mem_takeWhile_imp h
  simp at this

/-- A terminated buffer is its content, a terminator, and what follows. -/
theorem terminated_split (str : List Nat) (hstr : Terminated str) :
    ∃ tl, str = content str ++ 0 :: tl := by
  induction str with
  | nil => exact absurd hstr not_terminated_nil
  | cons c rest ih =>
    by_cases hc : c = 0
    · subst hc
      exact ⟨rest, by simp [content_cons_zero]⟩
    · obtain ⟨tl, htl⟩ := ih ((terminated_cons_ne c rest hc).1 hstr)
      refine ⟨tl, ?_⟩
      rw [content_cons_ne c rest hc, List.cons_append, ← htl]

theorem content_length_lt (str : List Nat) (hstr : Terminated str) :
    (content str).length < str.length := by
  obtain ⟨tl, htl⟩ := terminated_split str hstr
  have h := congrArg List.length htl
  simp at h
  omega

/-- The content of `s ++ 0 :: tl` is `s` when `s` holds no terminator. -/
theorem content_append_zero (s tl : List Nat) (hs : 0 ∉ s) :
    content (s ++ 0 :: tl) = s := by
  induction s with
  | nil => simp [content]
  | cons c rest ih =>
    have hc : c ≠ 0 := fun e => hs (by simp [e])
    have hrest : 0 ∉ rest := fun e => hs (by simp [e])
    rw [List.cons_append, content_cons_ne _ _ hc, ih hrest]

theorem terminated_append_zero (s tl : List Nat) : Terminated (s ++ 0 :: tl) := by
  simp [Terminated]

theorem content_lit (s : List Nat) (hs : 0 ∉ s) : content (lit s) = s :=
  content_append_zero s [] hs

theorem terminated_lit (s : List Nat) : Terminated (lit s) :=
  terminated_append_zero s []

/-! ## `strlen` and `stringlength` -/

theorem strlen_eq (str : List Nat) (hstr : Terminated str) :
    strlen str = some (content str).length := by
  induction str with
  | nil => exact absurd hstr not_terminated_nil
  | cons c rest ih =>
    by_cases hc : c = 0
    · subst hc
      simp [strlen, content_cons_zero]
    · have := ih ((terminated_cons_ne c rest hc).1 hstr)
      simp [strlen, hc, this, content_cons_ne c rest hc]

theorem stringlengthLoop_eq (str : List Nat) (hstr : Terminated str) (c : Int) :
    stringlengthLoop str (wrapInt c) = some (wrapInt (c + (content str).length)) := by
  induction str generalizing c with
  | nil => exact absurd hstr not_terminated_nil
  | cons x rest ih =>
    by_cases hx : x = 0
    · subst hx
      simp [stringlengthLoop, content_cons_zero]
    · have h := ih ((terminated_cons_ne x rest hx).1 hstr) (c + 1)
      simp only [stringlengthLoop, hx, ne_eq, not_false_eq_true, if_true, wrapInt_succ, h,
        content_cons_ne x rest hx, List.length_cons]
      congr 2
      push_cast
      ring

/-- The value `stringlength` returns: the number of elements, as an `int`. -/
theorem stringlength_eq (str : List Nat) (hstr : Terminated str) :
    stringlength str = some (wrapInt (content str).length) := by
  have h := stringlengthLoop_eq str hstr 0
  have h0 : wrapInt 0 = 0 := by decide
  rw [h0] at h
  simpa [stringlength] using h

/-- Only a scan that met a terminator returns. -/
theorem terminated_of_stringlengthLoop (str : List Nat) (c L : Int)
    (h : stringlengthLoop str c = some L) : Terminated str := by
  induction str generalizing c with
  | nil => simp [stringlengthLoop] at h
  | cons x rest ih =>
    by_cases hx : x = 0
    · subst hx
      simp [Terminated]
    · simp only [stringlengthLoop, hx, ne_eq, not_false_eq_true, if_true] at h
      exact (terminated_cons_ne x rest hx).2 (ih _ h)

theorem terminated_of_stringlength (str : List Nat) (L : Int)
    (h : stringlength str = some L) : Terminated str :=
  terminated_of_stringlengthLoop str 0 L h

/-! ## Writing into a block -/

/-- Storing at an offset inside a block replaces exactly that byte. -/
theorem set_split (blk : List Nat) (k c : Nat) (hk : k < blk.length) :
    blk.set k c = blk.take k ++ c :: blk.drop (k + 1) := by
  rw [List.set_eq_take_append_cons_drop, if_pos hk]

theorem take_succ_set (blk : List Nat) (k c : Nat) (hk : k < blk.length) :
    (blk.set k c).take (k + 1) = blk.take k ++ [c] := by
  rw [set_split blk k c hk, List.take_append_eq_append_take]
  simp [List.length_take, Nat.min_eq_left (Nat.le_of_lt hk)]

theorem drop_set_above (blk : List Nat) (k c m : Nat) (hm : k < m) :
    (blk.set k c).drop m = blk.drop m :=
  List.drop_set_of_lt c blk hm

/-- The `for` loop of `substring` copies the first `n` bytes at `str` to offset
`k` of the block when `n` bytes are there to read and to write. -/
theorem copyLoop_eq (n : Nat) (src blk : List Nat) (k : Nat)
    (hsrc : n ≤ src.length) (hblk : k + n ≤ blk.length) :
    copyLoop n src blk k = some (blk.take k ++ src.take n ++ blk.drop (k + n), k + n) := by
  induction n generalizing src blk k with
  | zero => simp [copyLoop]
  | succ n ih =>
    cases src with
    | nil => simp at hsrc
    | cons c rest =>
      have hk : k < blk.length := by omega
      have hrest : n ≤ rest.length := by simpa using hsrc
      have h := ih rest (blk.set k c) (k + 1) hrest (by simp; omega)
      simp only [copyLoop, hk, if_true, h, take_succ_set blk k c hk,
        drop_set_above blk k c (k + 1 + n) (by omega), List.take_succ_cons]
      simp [Nat.add_assoc, Nat.add_comm 1 n]

/-- The loop reads outside the object when fewer than `n` bytes are left. -/
theorem copyLoop_short (n : Nat) (src blk : List Nat) (k : Nat)
    (hsrc : src.length < n) : copyLoop n src blk k = none := by
  induction n generalizing src blk k with
  | zero => simp at hsrc
  | succ n ih =>
    cases src with
    | nil => simp [copyLoop]
    | cons c rest =>
      have hrest : rest.length < n := by simpa using hsrc
      simp only [copyLoop]
      split
      · exact ih rest _ _ hrest
      · rfl

/-- The loop of `strcpy` and `strcat` writes the content of `src` and a
terminator from offset `k` on, when the block has room for them. -/
theorem copyStr_eq (src dst : List Nat) (k : Nat) (hsrc : Terminated src)
    (hroom : k + (content src).length < dst.length) :
    copyStr src dst k =
      some (dst.take k ++ content src ++ 0 :: dst.drop (k + (content src).length + 1)) := by
  induction src generalizing dst k with
  | nil => exact absurd hsrc not_terminated_nil
  | cons c rest ih =>
    by_cases hc : c = 0
    · subst hc
      have hk : k < dst.length := by omega
      simp [copyStr, hk, content_cons_zero, set_split dst k 0 hk]
    · rw [content_cons_ne c rest hc] at hroom ⊢
      simp only [List.length_cons] at hroom
      have hk : k < dst.length := by omega
      have h := ih (dst.set k c) (k + 1) ((terminated_cons_ne c rest hc).1 hsrc)
        (by simp; omega)
      simp only [copyStr, hk, if_true, hc, if_false, h, take_succ_set dst k c hk,
        drop_set_above dst k c (k + 1 + (content rest).length + 1) (by omega)]
      simp [Nat.add_assoc, Nat.add_comm 1 (content rest).length]

/-! ## What the two allocating functions return -/

theorem malloc_of_grants (h : Heap) (n : Nat) (hg : h.grants n = true) :
    malloc h n = some ((List.range n).map h.junk) := by
  simp [malloc, hg]

theorem malloc_of_refuses (h : Heap) (n : Nat) (hg : h.grants n = false) :
    malloc h n = none := by
  simp [malloc, hg]

/-- After `strcpy(value, first)` and `strcat(value, second)` a block of
`strlen(first) + strlen(second) + 1` bytes holds both contents and a
terminator, whatever it held before. -/
theorem strcpy_strcat_eq (value first second : List Nat)
    (hf : Terminated first) (hs : Terminated second)
    (hlen : value.length = (content first).length + (content second).length + 1) :
    ∃ value1, strcpy value first = some value1 ∧
      strcat value1 second = some (lit (content first ++ content second)) := by
  have hcpy := copyStr_eq first value 0 hf (by omega)
  simp only [List.take_zero, List.nil_append, Nat.zero_add] at hcpy
  refine ⟨_, hcpy, ?_⟩
  have hz := zero_not_mem_content first
  have hlen1 : strlen (content first ++ 0 :: value.drop ((content first).length + 1)) =
      some (content first).length := by
    rw [strlen_eq _ (terminated_append_zero _ _), content_append_zero _ _ hz]
  have hcat := copyStr_eq second
    (content first ++ 0 :: value.drop ((content first).length + 1)) (content first).length hs
    (by simp; omega)
  simp only [strcat, hlen1, hcat, lit]
  rw [List.take_left, List.drop_of_length_le (by simp; omega)]

/-- The result of `__throbac_cat` when `malloc` grants the request. -/
theorem throbac_cat_of_grants (h : Heap) (first second : List Nat)
    (hf : Terminated first) (hs : Terminated second)
    (hg : h.grants ((content first).length + (content second).length + 1) = true) :
    __throbac_cat h first second = .ret (lit (content first ++ content second)) := by
  obtain ⟨value1, h1, h2⟩ := strcpy_strcat_eq
    ((List.range ((content first).length + (content second).length + 1)).map h.junk)
    first second hf hs (by simp)
  simp [__throbac_cat, strlen_eq first hf, strlen_eq second hs, malloc_of_grants h _ hg, h1, h2]

/-- The result of `substring` when all three checks pass and `malloc` grants
the request. -/
theorem substring_of_grants (h : Heap) (str : List Nat) (start len L : Int)
    (hL : stringlength str = some L) (h0 : 0 ≤ start) (h1 : 0 ≤ len)
    (h2 : start ≤ L - 1) (h3 : start + len ≤ L)
    (hg : h.grants (len.toNat + 1) = true) :
    substring h str start len =
      .ret ("", some (lit (slice str start.toNat len.toNat))) := by
  unfold slice
  have hstr := terminated_of_stringlength str L hL
  have hLn : L = wrapInt (content str).length := by
    have := stringlength_eq str hstr
    rw [hL] at this
    exact Option.some.inj this
  have hle : L ≤ (content str).length := by
    rw [hLn]
    exact le_of_wrapInt_pos _ (by rw [← hLn]; omega)
  have hmax : L ≤ INT_MAX := hLn ▸ (wrapInt_range _).2
  have hlt := content_length_lt str hstr
  have hmaxv : INT_MAX = 2147483647 := rfl
  have hminv : INT_MIN = -2147483648 := rfl
  have hw2 : wrapInt (start + len) = start + len := wrapInt_of_range _ (by omega) (by omega)
  have hsrc : len.toNat ≤ (str.drop start.toNat).length := by
    simp only [List.length_drop]
    omega
  have hloop := copyLoop_eq len.toNat (str.drop start.toNat)
    ((List.range (len.toNat + 1)).map h.junk) 0 hsrc (by simp)
  simp only [List.take_zero, List.nil_append, Nat.zero_add] at hloop
  have hlen : ((str.drop start.toNat).take len.toNat).length = len.toNat := by
    rw [List.length_take]
    exact Nat.min_eq_left hsrc
  have hblk : ((str.drop start.toNat).take len.toNat ++
      ((List.range (len.toNat + 1)).map h.junk).drop len.toNat).length = len.toNat + 1 := by
    simp [hlen]
  have hc1 : ¬ (start < 0 ∨ len < 0) := by omega
  have hc2 : ¬ (start > L - 1) := by omega
  have hc3 : ¬ (start + len > L) := by omega
  have hfin : ((str.drop start.toNat).take len.toNat ++
      ((List.range (len.toNat + 1)).map h.junk).drop len.toNat).set len.toNat 0 =
      lit ((str.drop start.toNat).take len.toNat) := by
    rw [set_split _ len.toNat 0 (by omega), List.take_left' hlen,
      List.drop_of_length_le (Nat.le_of_eq hblk), lit]
  simp only [substring, hL, hw2, malloc_of_grants h _ hg, hloop, if_neg hc1, if_neg hc2,
    if_neg hc3, hblk, Nat.lt_succ_self, if_true, hfin]

/-- The value of `stringlength` on a string of fewer than `2 ^ 31` elements. -/
theorem stringlength_of_le (str : List Nat) (hstr : Terminated str)
    (hlen : ((content str).length : Int) ≤ INT_MAX) :
    stringlength str = some ((content str).length : Int) := by
  rw [stringlength_eq str hstr, wrapInt_of_range _ (by unfold INT_MIN; omega) hlen]

/-- A `stringlength` of at least `1` is at most the number of elements. -/
theorem stringlength_le_content (str : List Nat) (L : Int)
    (hL : stringlength str = some L) (hpos : 0 ≤ L) : L ≤ (content str).length := by
  have hstr := terminated_of_stringlength str L hL
  have := stringlength_eq str hstr
  rw [hL] at this
  have hLn : L = wrapInt (content str).length := Option.some.inj this
  rw [hLn]
  exact le_of_wrapInt_pos _ (by rw [← hLn]; exact hpos)

/-- A window inside the content of a string holds no terminator. -/
theorem zero_not_mem_slice (str : List Nat) (hstr : Terminated str) (s l : Nat)
    (hwin : s + l ≤ (content str).length) : 0 ∉ slice str s l := by
  obtain ⟨tl, htl⟩ := terminated_split str hstr
  have h1 : slice str s l = slice (content str) s l := by
    unfold slice
    conv_lhs => rw [htl]
    rw [List.drop_append_of_le_length (by omega),
      List.take_append_of_le_length (by simp; omega)]
  rw [h1]
  intro hmem
  exact zero_not_mem_content str (List.mem_of_mem_drop (List.mem_of_mem_take hmem))

theorem slice_getElem? (str : List Nat) (s l i : Nat) (hi : i < l) :
    (slice str s l)[i]? = str[s + i]? := by
  simp [slice, List.getElem?_take, hi]

theorem slice_length (str : List Nat) (s l : Nat) (h : s + l ≤ str.length) :
    (slice str s l).length = l := by
  simp [slice]
  omega

/-! ## Outcomes of `substring` by check -/

theorem substring_of_negative (h : Heap) (str : List Nat) (start len : Int)
    (hstr : Terminated str) (hneg : start < 0 ∨ len < 0) :
    substring h str start len = .ret (NegativeArgument, none) := by
  simp only [substring, stringlength_eq str hstr, if_pos hneg]

theorem substring_of_start (h : Heap) (str : List Nat) (start len L : Int)
    (hL : stringlength str = some L) (hc1 : ¬ (start < 0 ∨ len < 0))
    (hc2 : start > L - 1) :
    substring h str start len = .ret (StartOutOfRange, none) := by
  simp only [substring, hL, if_neg hc1, if_pos hc2]

theorem substring_of_range (h : Heap) (str : List Nat) (start len L : Int)
    (hL : stringlength str = some L) (hc1 : ¬ (start < 0 ∨ len < 0))
    (hc2 : ¬ start > L - 1) (hc3 : wrapInt (start + len) > L) :
    substring h str start len = .ret (RangeExceedsLength, none) := by
  simp only [substring, hL, if_neg hc1, if_neg hc2, if_pos hc3]

/-- Past the three checks `substring` prints nothing and returns no `NULL`. -/
theorem substring_of_pass (h : Heap) (str : List Nat) (start len L : Int)
    (hL : stringlength str = some L) (hc1 : ¬ (start < 0 ∨ len < 0))
    (hc2 : ¬ start > L - 1) (hc3 : ¬ wrapInt (start + len) > L) :
    substring h str start len = .undefined ∨
      ∃ blk, substring h str start len = .ret ("", some blk) := by
  simp only [substring, hL, if_neg hc1, if_neg hc2, if_neg hc3]
  split
  · exact Or.inl rfl
  · split
    · exact Or.inl rfl
    · split
      · exact Or.inr ⟨_, rfl⟩
      · exact Or.inl rfl

theorem messages_distinct :
    NegativeArgument ≠ StartOutOfRange ∧ NegativeArgument ≠ RangeExceedsLength ∧
      StartOutOfRange ≠ RangeExceedsLength ∧ NegativeArgument ≠ "" ∧
      StartOutOfRange ≠ "" ∧ RangeExceedsLength ≠ "" := by
  decide

/-- Past the three checks, a window that leaves the object is undefined
behaviour: either `malloc` returned `NULL`, which is then written through, or
the copy loop reads beyond the last byte of `str`. -/
theorem substring_of_short (h : Heap) (str : List Nat) (start len L : Int)
    (hL : stringlength str = some L) (hc1 : ¬ (start < 0 ∨ len < 0))
    (hc2 : ¬ start > L - 1) (hc3 : ¬ wrapInt (start + len) > L)
    (hshort : (str.drop start.toNat).length < len.toNat) :
    substring h str start len = .undefined := by
  simp only [substring, hL, if_neg hc1, if_neg hc2, if_neg hc3]
  split
  · rfl
  · rw [copyLoop_short _ _ _ _ hshort]

/-- The whole content is the window from `0` of its own length. -/
theorem slice_whole (str : List Nat) (hstr : Terminated str) :
    slice str 0 (content str).length = content str := by
  obtain ⟨tl, htl⟩ := terminated_split str hstr
  have h := List.take_left (content str) (0 :: tl)
  rw [← htl] at h
  simpa [slice] using h

/-- The range check rejects every window that ends beyond the string as long
as the sum `start + length` stays an `int`. -/
theorem substring_of_range_exact (h : Heap) (str : List Nat) (start len L : Int)
    (hL : stringlength str = some L) (h0 : 0 ≤ start) (h1 : 0 ≤ len)
    (h2 : start ≤ L - 1) (hsum : start + len ≤ INT_MAX) (hgt : start + len > L) :
    substring h str start len = .ret (RangeExceedsLength, none) := by
  have hmaxv : INT_MAX = 2147483647 := rfl
  have hminv : INT_MIN = -2147483648 := rfl
  have hw2 : wrapInt (start + len) = start + len := wrapInt_of_range _ (by omega) (by omega)
  exact substring_of_range h str start len L hL (by omega) (by omega)
    (by rw [hw2]; exact hgt)

/-- Where no `int` operation overflows and `malloc` grants every request, a
block is returned exactly when all four conditions on `start` and `len` hold. -/
theorem substring_present_iff_exact (junk : Nat → Nat) (str : List Nat) (start len L : Int)
    (hL : stringlength str = some L) (hsum : start + len ≤ INT_MAX) :
    (∃ blk, substring (Heap.ample junk) str start len = .ret ("", some blk)) ↔
      (0 ≤ start ∧ 0 ≤ len ∧ start ≤ L - 1 ∧ start + len ≤ L) := by
  have hstr := terminated_of_stringlength str L hL
  have hmaxv : INT_MAX = 2147483647 := rfl
  have hminv : INT_MIN = -2147483648 := rfl
  have hmax : L ≤ INT_MAX := by
    have := stringlength_eq str hstr
    rw [hL] at this
    rw [Option.some.inj this]
    exact (wrapInt_range _).2
  constructor
  · rintro ⟨blk, hb⟩
    by_contra hcon
    by_cases hc1 : start < 0 ∨ len < 0
    · rw [substring_of_negative _ str start len hstr hc1] at hb
      injection hb with e
      exact Option.noConfusion (Prod.mk.inj e).2
    · by_cases hc2 : start > L - 1
      · rw [substring_of_start _ str start len L hL hc1 hc2] at hb
        injection hb with e
        exact Option.noConfusion (Prod.mk.inj e).2
      · have hw2 : wrapInt (start + len) = start + len :=
          wrapInt_of_range _ (by omega) (by omega)
        have hc3 : wrapInt (start + len) > L := by
          rw [hw2]
          omega
        rw [substring_of_range _ str start len L hL hc1 hc2 hc3] at hb
        injection hb with e
        exact Option.noConfusion (Prod.mk.inj e).2
  · rintro ⟨h0, h1, h2, h3⟩
    exact ⟨_, substring_of_grants _ str start len L hL h0 h1 h2 h3 rfl⟩

/-! ## Long strings -/

theorem content_letters (n : Nat) : content (letters n) = List.replicate n 65 :=
  content_lit _ (by simp)

theorem terminated_letters (n : Nat) : Terminated (letters n) :=
  terminated_lit (List.replicate n 65)

theorem stringlength_letters (n : Nat) : stringlength (letters n) = some (wrapInt n) := by
  rw [stringlength_eq (letters n) (terminated_letters n), content_letters,
    List.length_replicate]

/-- The `int` that `stringlength` returns for `2 ^ 31` letters. -/
theorem stringlength_letters_wrapped :
    stringlength (letters 2147483648) = some (-2147483648) :=
  (stringlength_letters 2147483648).trans rfl

/-! ## The claims -/

/-- C1: when `start >= 0`, `len >= 0`, `start <= stringlength(str) - 1` and
`start + len <= stringlength(str)`, `substring(str, start, len)` prints nothing
and returns a block whose content is exactly `str[start], ..., str[start+len-1]`
in order: `len` elements, the `i`-th being `str[start + i]`, followed by the
terminator. -/
theorem substring_returns_window (junk : Nat → Nat) (str : List Nat) (start len L : Int)
    (hL : stringlength str = some L) (h0 : 0 ≤ start) (h1 : 0 ≤ len)
    (h2 : start ≤ L - 1) (h3 : start + len ≤ L) :
    substring (Heap.ample junk) str start len =
        .ret ("", some (lit (slice str start.toNat len.toNat))) ∧
      content (lit (slice str start.toNat len.toNat)) = slice str start.toNat len.toNat ∧
      (slice str start.toNat len.toNat).length = len.toNat ∧
      ∀ i, i < len.toNat → (slice str start.toNat len.toNat)[i]? = str[start.toNat + i]? := by
  have hstr := terminated_of_stringlength str L hL
  have hle := stringlength_le_content str L hL (by omega)
  have hlt := content_length_lt str hstr
  refine ⟨substring_of_grants _ str start len L hL h0 h1 h2 h3 rfl, ?_, ?_, ?_⟩
  · exact content_lit _ (zero_not_mem_slice str hstr _ _ (by omega))
  · exact slice_length str _ _ (by omega)
  · intro i hi
    exact slice_getElem? str _ _ i hi

/-- C1 at `substring("hello", 1, 3) = "ell"`. -/
theorem substring_returns_window_witness :
    stringlength hello = some 5 ∧
      substring (Heap.ample id) hello 1 3 = .ret ("", some (lit [101, 108, 108])) :=
  ⟨by decide,
    (substring_returns_window id hello 1 3 5 (by decide) (by decide) (by decide) (by decide)
      (by decide)).1⟩

/-- C2: for all strings `first` and `second`, empty ones included,
`__throbac_cat(first, second)` returns a string whose content is the content of
`first` immediately followed by the content of `second`; so the result starts
with `first` and ends with `second`. -/
theorem throbac_cat_content (junk : Nat → Nat) (first second : List Nat)
    (hf : Terminated first) (hs : Terminated second) :
    ∃ r, __throbac_cat (Heap.ample junk) first second = .ret r ∧ Terminated r ∧
      content r = content first ++ content second ∧
      content first <+: content r ∧ content second <:+ content r := by
  have hz : 0 ∉ content first ++ content second := by
    simp [zero_not_mem_content]
  have hc := content_lit _ hz
  refine ⟨_, throbac_cat_of_grants _ first second hf hs rfl, terminated_lit _, hc, ?_, ?_⟩
  · rw [hc]
    exact List.prefix_append _ _
  · rw [hc]
    exact List.suffix_append _ _

/-- C2 at `"hello"` and the empty string, both ways round. -/
theorem throbac_cat_content_witness :
    (∃ r, __throbac_cat (Heap.ample id) hello (lit []) = .ret r ∧ Terminated r ∧
      content r = content hello ++ content (lit []) ∧
      content hello <+: content r ∧ content (lit []) <:+ content r) ∧
    __throbac_cat (Heap.ample id) (lit []) hello = .ret hello :=
  ⟨throbac_cat_content id hello (lit []) (by decide) (by decide), by decide⟩

/-- C3 fails on a string of `2 ^ 31` elements: `stringlength` returns
`-2147483648`, not the number of elements. -/
theorem stringlength_long_not_exact :
    Terminated (letters 2147483648) ∧
      (content (letters 2147483648)).length = 2147483648 ∧
      stringlength (letters 2147483648) = some (-2147483648) := by
  refine ⟨terminated_letters _, ?_, ?_⟩
  · rw [content_letters, List.length_replicate]
  · rw [stringlength_letters]
    rfl

/-- C3, amended: for every null-terminated string with at most `2 ^ 31 - 1`
elements before the first terminator, `stringlength(str)` is exactly that
number of elements. -/
theorem stringlength_exact (str : List Nat) (hstr : Terminated str)
    (hlen : ((content str).length : Int) ≤ INT_MAX) :
    stringlength str = some ((content str).length : Int) :=
  stringlength_of_le str hstr hlen

/-- C3 at `""` and `"abc"`. -/
theorem stringlength_exact_witness :
    stringlength (lit []) = some 0 ∧ stringlength abc = some 3 :=
  ⟨stringlength_exact (lit []) (by decide) (by decide),
    stringlength_exact abc (by decide) (by decide)⟩

/-- C4: for every string and all integers `start`, `len`, `substring` prints
"Inputted values can't be negative" and returns `NULL` if and only if
`start < 0` or `len < 0`; neither range check is consulted first. -/
theorem substring_negative_iff (h : Heap) (str : List Nat) (start len : Int)
    (hstr : Terminated str) :
    substring h str start len = .ret (NegativeArgument, none) ↔ (start < 0 ∨ len < 0) := by
  constructor
  · intro hres
    by_contra hc1
    have hL := stringlength_eq str hstr
    obtain ⟨d1, d2, -, d4, -, -⟩ := messages_distinct
    by_cases hc2 : start > wrapInt (content str).length - 1
    · rw [substring_of_start h str start len _ hL hc1 hc2] at hres
      exact d1 (by injection hres with e; exact (Prod.mk.inj e).1.symm)
    · by_cases hc3 : wrapInt (start + len) > wrapInt (content str).length
      · rw [substring_of_range h str start len _ hL hc1 hc2 hc3] at hres
        exact d2 (by injection hres with e; exact (Prod.mk.inj e).1.symm)
      · rcases substring_of_pass h str start len _ hL hc1 hc2 hc3 with hu | ⟨blk, hb⟩
        · rw [hu] at hres
          exact Outcome.noConfusion hres
        · rw [hb] at hres
          exact d4 (by injection hres with e; exact (Prod.mk.inj e).1.symm)
  · exact substring_of_negative h str start len hstr

/-- C4 at `substring("hello", -1, 2)`, and with both checks failing at once. -/
theorem substring_negative_iff_witness :
    substring (Heap.ample id) hello (-1) 2 = .ret (NegativeArgument, none) ∧
      substring (Heap.ample id) hello 9 (-2) = .ret (NegativeArgument, none) :=
  ⟨(substring_negative_iff (Heap.ample id) hello (-1) 2 (by decide)).2 (by decide),
    (substring_negative_iff (Heap.ample id) hello 9 (-2) (by decide)).2 (by decide)⟩

/-- C5: for every string and all `start >= 0`, `len >= 0`, `substring` prints
the start-index error and returns `NULL` if and only if
`start > stringlength(str) - 1`, whatever `int` `stringlength(str)` is; in
particular `substring(str, stringlength(str), 0)`, a call with `start >= 0`
when `stringlength(str)` is not negative, is rejected so. -/
theorem substring_start_iff (h : Heap) (str : List Nat) (start len L : Int)
    (hL : stringlength str = some L) (h0 : 0 ≤ start) (h1 : 0 ≤ len) :
    (substring h str start len = .ret (StartOutOfRange, none) ↔ start > L - 1) ∧
      (0 ≤ L → substring h str L 0 = .ret (StartOutOfRange, none)) := by
  have hc1 : ¬ (start < 0 ∨ len < 0) := by omega
  obtain ⟨-, -, d3, -, d5, -⟩ := messages_distinct
  refine ⟨⟨?_, ?_⟩, ?_⟩
  · intro hres
    by_contra hc2
    by_cases hc3 : wrapInt (start + len) > L
    · rw [substring_of_range h str start len L hL hc1 hc2 hc3] at hres
      injection hres with e
      exact d3 (Prod.mk.inj e).1.symm
    · rcases substring_of_pass h str start len L hL hc1 hc2 hc3 with hu | ⟨blk, hb⟩
      · rw [hu] at hres
        exact Outcome.noConfusion hres
      · rw [hb] at hres
        injection hres with e
        exact d5 (Prod.mk.inj e).1.symm
  · intro hgt
    exact substring_of_start h str start len L hL hc1 hgt
  · intro hLpos
    exact substring_of_start h str L 0 L hL (by omega) (by omega)

/-- C5 at `substring("hello", 5, 0)`, and at `(0, 0)` on a string of `2 ^ 31`
letters, whose `stringlength` is `-2147483648`. -/
theorem substring_start_iff_witness :
    stringlength hello = some 5 ∧
      substring (Heap.ample id) hello 5 0 = .ret (StartOutOfRange, none) ∧
      stringlength (letters 2147483648) = some (-2147483648) ∧
      substring (Heap.ample id) (letters 2147483648) 0 0 = .ret (StartOutOfRange, none) :=
  ⟨by decide,
    (substring_start_iff (Heap.ample id) hello 5 0 5 (by decide) (by decide)
      (by decide)).2 (by decide),
    stringlength_letters_wrapped,
    (substring_start_iff (Heap.ample id) (letters 2147483648) 0 0 (-2147483648)
      stringlength_letters_wrapped (by decide) (by decide)).1.2 (by decide)⟩

/-- C6 at `substring("hello", 2, 2147483647)`: the sum `start + length`
overflows `int` and wraps to `-2147483647`, the range check passes, and the
copy loop leaves the object; no `RangeExceedsLength` error is returned. -/
theorem substring_range_check_overflow (h : Heap) :
    stringlength hello = some 5 ∧ (2 : Int) + 2147483647 > 5 ∧
      wrapInt (2 + 2147483647) = -2147483647 ∧
      substring h hello 2 2147483647 = .undefined :=
  ⟨by decide, by decide, by decide,
    substring_of_short h hello 2 2147483647 5 (by decide) (by decide) (by decide) (by decide)
      (by decide)⟩

/-- C7 at `substring("abc", 1, 2147483647)`: `start + len` exceeds
`stringlength(str)`, yet the call neither returns `NULL` nor prints one of the
three errors, because `start + length` overflows `int`. -/
theorem substring_present_iff_overflow (h : Heap) :
    stringlength abc = some 3 ∧ ¬ ((1 : Int) + 2147483647 ≤ 3) ∧
      substring h abc 1 2147483647 = .undefined :=
  ⟨by decide, by decide,
    substring_of_short h abc 1 2147483647 3 (by decide) (by decide) (by decide) (by decide)
      (by decide)⟩

/-- C8: `substring` of the empty string always fails: for all integers `start`
and `len` it returns `NULL`, and whenever `start >= 0` and `len >= 0` the error
printed is the start-index error. -/
theorem substring_empty (h : Heap) (rest : List Nat) (start len : Int) :
    (∃ msg, substring h (0 :: rest) start len = .ret (msg, none)) ∧
      (0 ≤ start → 0 ≤ len →
        substring h (0 :: rest) start len = .ret (StartOutOfRange, none)) := by
  have hL : stringlength (0 :: rest) = some 0 := by
    simp [stringlength, stringlengthLoop]
  have key : ¬ (start < 0 ∨ len < 0) →
      substring h (0 :: rest) start len = .ret (StartOutOfRange, none) := fun hc1 =>
    substring_of_start h (0 :: rest) start len 0 hL hc1 (by omega)
  constructor
  · by_cases hc1 : start < 0 ∨ len < 0
    · exact ⟨_, substring_of_negative h _ start len (by simp [Terminated]) hc1⟩
    · exact ⟨_, key hc1⟩
  · intro h0 h1
    exact key (by omega)

/-- C8 at `substring("", 0, 0)`. -/
theorem substring_empty_witness :
    substring (Heap.ample id) (lit []) 0 0 = .ret (StartOutOfRange, none) :=
  (substring_empty (Heap.ample id) [] 0 0).2 (by decide) (by decide)

/-- C9 fails on a non-empty string of `2 ^ 31` elements: its `stringlength` is
`-2147483648`, and `substring(s, 0, stringlength(s))` is rejected as a negative
argument. -/
theorem substring_whole_long :
    content (letters 2147483648) ≠ [] ∧
      stringlength (letters 2147483648) = some (-2147483648) ∧
      substring (Heap.ample id) (letters 2147483648) 0 (-2147483648) =
        .ret (NegativeArgument, none) := by
  refine ⟨?_, (stringlength_letters 2147483648).trans rfl,
    substring_of_negative _ _ _ _ (terminated_letters _) (by decide)⟩
  rw [content_letters]
  intro e
  have hlen := congrArg List.length e
  rw [List.length_replicate, List.length_nil] at hlen
  exact absurd hlen (by decide)

/-- C9, amended: for every non-empty string `s` of at most `2 ^ 31 - 1`
elements, `substring(s, 0, stringlength(s))` succeeds and returns a string
whose content is that of `s`. -/
theorem substring_whole (junk : Nat → Nat) (s : List Nat) (hs : Terminated s)
    (hne : content s ≠ []) (hlen : ((content s).length : Int) ≤ INT_MAX) :
    ∃ L, stringlength s = some L ∧
      substring (Heap.ample junk) s 0 L = .ret ("", some (lit (content s))) ∧
      content (lit (content s)) = content s := by
  have hL := stringlength_of_le s hs hlen
  have hpos : 0 < (content s).length := List.length_pos.2 hne
  refine ⟨_, hL, ?_, content_lit _ (zero_not_mem_content s)⟩
  have h := substring_of_grants (Heap.ample junk) s 0 (content s).length _ hL
    (le_refl 0) (by omega) (by omega) (by omega) rfl
  simpa [slice_whole s hs] using h

/-- C9 at `substring("hello", 0, 5) = "hello"`. -/
theorem substring_whole_witness :
    ∃ L, stringlength hello = some L ∧
      substring (Heap.ample id) hello 0 L = .ret ("", some (lit (content hello))) ∧
      content (lit (content hello)) = content hello :=
  substring_whole id hello (by decide) (by decide) (by decide)

/-- C10 fails on two strings of `2 ^ 30` elements each: each has `stringlength`
`1073741824`, while `stringlength` of their concatenation is `-2147483648`. -/
theorem stringlength_cat_long :
    stringlength (letters 1073741824) = some 1073741824 ∧
      ∃ r, __throbac_cat (Heap.ample id) (letters 1073741824) (letters 1073741824) = .ret r ∧
        stringlength r = some (-2147483648) := by
  refine ⟨(stringlength_letters 1073741824).trans rfl,
    _, throbac_cat_of_grants _ _ _ (terminated_letters _) (terminated_letters _) rfl, ?_⟩
  have hz : 0 ∉ content (letters 1073741824) ++ content (letters 1073741824) := by
    intro hmem
    rcases List.mem_append.1 hmem with hm | hm <;> exact zero_not_mem_content _ hm
  rw [stringlength_eq _ (terminated_lit _), content_lit _ hz, List.length_append,
    content_letters, List.length_replicate]
  rfl

/-- C10, amended: for all strings `a` and `b` with at most `2 ^ 31 - 1` elements
between them, `stringlength(__throbac_cat(a, b))` equals
`stringlength(a) + stringlength(b)`. -/
theorem stringlength_cat (junk : Nat → Nat) (a b : List Nat)
    (ha : Terminated a) (hb : Terminated b)
    (hsum : ((content a).length : Int) + (content b).length ≤ INT_MAX) :
    ∃ r la lb, __throbac_cat (Heap.ample junk) a b = .ret r ∧
      stringlength a = some la ∧ stringlength b = some lb ∧
      stringlength r = some (la + lb) := by
  have hmaxv : INT_MAX = 2147483647 := rfl
  refine ⟨_, _, _, throbac_cat_of_grants _ a b ha hb rfl,
    stringlength_of_le a ha (by omega), stringlength_of_le b hb (by omega), ?_⟩
  have hz : 0 ∉ content a ++ content b := by simp [zero_not_mem_content]
  rw [stringlength_of_le _ (terminated_lit _) (by rw [content_lit _ hz]; simpa using hsum),
    content_lit _ hz]
  simp

/-- C10 at `"hello"` and `"abc"`. -/
theorem stringlength_cat_witness :
    ∃ r la lb, __throbac_cat (Heap.ample id) hello abc = .ret r ∧
      stringlength hello = some la ∧ stringlength abc = some lb ∧
      stringlength r = some (la + lb) :=
  stringlength_cat id hello abc (by decide) (by decide) (by decide)

/-- C12: with `malloc` free to refuse, `__throbac_cat(first, second)` ends in
`abort()` if and only if the request for `strlen(first) + strlen(second) + 1`
bytes is refused; whenever it returns, the block returned is the full
concatenation, and it does return it whenever the request is granted. -/
theorem throbac_cat_abort_iff (h : Heap) (first second : List Nat)
    (hf : Terminated first) (hs : Terminated second) :
    strlen first = some (content first).length ∧
      strlen second = some (content second).length ∧
      (__throbac_cat h first second = .abort ↔
        malloc h ((content first).length + (content second).length + 1) = none) ∧
      (malloc h ((content first).length + (content second).length + 1) ≠ none →
        __throbac_cat h first second = .ret (lit (content first ++ content second))) ∧
      (∀ r, __throbac_cat h first second = .ret r →
        r = lit (content first ++ content second)) := by
  refine ⟨strlen_eq first hf, strlen_eq second hs, ?_⟩
  cases hg : h.grants ((content first).length + (content second).length + 1) with
  | false =>
    have hm := malloc_of_refuses h _ hg
    have hab : __throbac_cat h first second = .abort := by
      simp [__throbac_cat, strlen_eq first hf, strlen_eq second hs, hm]
    refine ⟨⟨fun _ => hm, fun _ => hab⟩, fun hne => absurd hm hne, ?_⟩
    intro r hr
    rw [hab] at hr
    exact Outcome.noConfusion hr
  | true =>
    have hm := malloc_of_grants h _ hg
    have hret := throbac_cat_of_grants h first second hf hs hg
    refine ⟨⟨?_, ?_⟩, fun _ => hret, ?_⟩
    · intro hab
      rw [hret] at hab
      exact Outcome.noConfusion hab
    · intro hnone
      rw [hm] at hnone
      exact Option.noConfusion hnone
    · intro r hr
      rw [hret] at hr
      injection hr with e
      exact e.symm

/-- C12 on a heap that refuses every request, and on one that grants them. -/
theorem throbac_cat_abort_iff_witness :
    __throbac_cat ⟨fun _ => false, id⟩ hello abc = .abort ∧
      __throbac_cat (Heap.ample id) hello abc =
        .ret (lit [104, 101, 108, 108, 111, 97, 98, 99]) :=
  ⟨(throbac_cat_abort_iff ⟨fun _ => false, id⟩ hello abc (by decide) (by decide)).2.2.1.2
      (by decide),
    (throbac_cat_abort_iff (Heap.ample id) hello abc (by decide) (by decide)).2.2.2.1
      (by decide)⟩

/-- C13 fails on a string of `3000000000` elements: the `int` that
`stringlength` returns is `-1294967296`, a negative number. -/
theorem stringlength_long_negative :
    Terminated (letters 3000000000) ∧
      stringlength (letters 3000000000) = some (-1294967296) ∧
      (-1294967296 : Int) < 0 :=
  ⟨terminated_letters _, (stringlength_letters 3000000000).trans rfl, by decide⟩

/-- C13, amended: for every null-terminated string of at most `2 ^ 31 - 1`
elements the `int` returned by `stringlength` is non-negative, and it is zero
for the empty string. -/
theorem stringlength_nonneg (str : List Nat) (hstr : Terminated str)
    (hlen : ((content str).length : Int) ≤ INT_MAX) :
    ∃ L, stringlength str = some L ∧ 0 ≤ L ∧ (content str = [] → L = 0) := by
  refine ⟨_, stringlength_of_le str hstr hlen, by omega, ?_⟩
  intro he
  simp [he]

/-- C13 at `"abc"` and at the empty string. -/
theorem stringlength_nonneg_witness :
    (∃ L, stringlength abc = some L ∧ 0 ≤ L ∧ (content abc = [] → L = 0)) ∧
      ∃ L, stringlength (lit []) = some L ∧ 0 ≤ L ∧ (content (lit []) = [] → L = 0) :=
  ⟨stringlength_nonneg abc (by decide) (by decide),
    stringlength_nonneg (lit []) (by decide) (by decide)⟩

/-- C14: on every buffer that holds a terminator the scan of `stringlength`
ends and returns a value, and it returns the same value whatever follows the
first terminator, also when nothing does: no element after the first
terminator is read. -/
theorem stringlength_returns (str : List Nat) (hstr : Terminated str) :
    ∃ L, stringlength str = some L ∧
      ∀ tl, stringlength (content str ++ 0 :: tl) = some L := by
  refine ⟨_, stringlength_eq str hstr, ?_⟩
  intro tl
  rw [stringlength_eq _ (terminated_append_zero _ _),
    content_append_zero _ _ (zero_not_mem_content str)]

/-- C14 at `"hello"` followed in its buffer by other bytes. -/
theorem stringlength_returns_witness :
    ∃ L, stringlength (hello ++ [7, 0, 9]) = some L ∧
      ∀ tl, stringlength (content (hello ++ [7, 0, 9]) ++ 0 :: tl) = some L :=
  stringlength_returns (hello ++ [7, 0, 9]) (by decide)

/-- C19: for all strings `a`, `b`, `c` the two ways of concatenating them with
`__throbac_cat` return strings with equal content. -/
theorem throbac_cat_assoc (junk : Nat → Nat) (a b c : List Nat)
    (ha : Terminated a) (hb : Terminated b) (hc : Terminated c) :
    ∃ ab bc r1 r2, __throbac_cat (Heap.ample junk) a b = .ret ab ∧
      __throbac_cat (Heap.ample junk) b c = .ret bc ∧
      __throbac_cat (Heap.ample junk) ab c = .ret r1 ∧
      __throbac_cat (Heap.ample junk) a bc = .ret r2 ∧
      content r1 = content r2 := by
  have hzab : 0 ∉ content a ++ content b := by simp [zero_not_mem_content]
  have hzbc : 0 ∉ content b ++ content c := by simp [zero_not_mem_content]
  have h1 := throbac_cat_of_grants (Heap.ample junk) (lit (content a ++ content b)) c
    (terminated_lit _) hc rfl
  have h2 := throbac_cat_of_grants (Heap.ample junk) a (lit (content b ++ content c))
    ha (terminated_lit _) rfl
  rw [content_lit _ hzab] at h1
  rw [content_lit _ hzbc] at h2
  refine ⟨_, _, _, _, throbac_cat_of_grants _ a b ha hb rfl,
    throbac_cat_of_grants _ b c hb hc rfl, h1, h2, ?_⟩
  rw [List.append_assoc]

/-- C19 at `"hello"`, the empty string and `"abc"`. -/
theorem throbac_cat_assoc_witness :
    ∃ ab bc r1 r2, __throbac_cat (Heap.ample id) hello (lit []) = .ret ab ∧
      __throbac_cat (Heap.ample id) (lit []) abc = .ret bc ∧
      __throbac_cat (Heap.ample id) ab abc = .ret r1 ∧
      __throbac_cat (Heap.ample id) hello bc = .ret r2 ∧
      content r1 = content r2 :=
  throbac_cat_assoc id hello (lit []) abc (by decide) (by decide) (by decide)

/-! ## Windows admitted by an overflowing sum -/

/-- Past the three checks, with the request granted and `len` bytes to read,
`substring` returns the window and a terminator, whether or not the window
lies inside the string. -/
theorem substring_pass_eq (h : Heap) (str : List Nat) (start len L : Int)
    (hL : stringlength str = some L) (hc1 : ¬ (start < 0 ∨ len < 0))
    (hc2 : ¬ start > L - 1) (hc3 : ¬ wrapInt (start + len) > L)
    (hsrc : len.toNat ≤ (str.drop start.toNat).length)
    (hg : h.grants (len.toNat + 1) = true) :
    substring h str start len =
      .ret ("", some (lit (slice str start.toNat len.toNat))) := by
  unfold slice
  have hloop := copyLoop_eq len.toNat (str.drop start.toNat)
    ((List.range (len.toNat + 1)).map h.junk) 0 hsrc (by simp)
  simp only [List.take_zero, List.nil_append, Nat.zero_add] at hloop
  have hlen : ((str.drop start.toNat).take len.toNat).length = len.toNat := by
    rw [List.length_take]
    exact Nat.min_eq_left hsrc
  have hblk : ((str.drop start.toNat).take len.toNat ++
      ((List.range (len.toNat + 1)).map h.junk).drop len.toNat).length = len.toNat + 1 := by
    simp [hlen]
  have hfin : ((str.drop start.toNat).take len.toNat ++
      ((List.range (len.toNat + 1)).map h.junk).drop len.toNat).set len.toNat 0 =
      lit ((str.drop start.toNat).take len.toNat) := by
    rw [set_split _ len.toNat 0 (by omega), List.take_left' hlen,
      List.drop_of_length_le (Nat.le_of_eq hblk), lit]
  simp only [substring, hL, malloc_of_grants h _ hg, hloop, if_neg hc1, if_neg hc2,
    if_neg hc3, hblk, Nat.lt_succ_self, if_true, hfin]

theorem length_letters (n : Nat) : (letters n).length = n + 1 := by
  simp [letters, lit]

/-- The window of a string of letters from `i` to one past its terminator. -/
theorem slice_letters_tail (n i : Nat) (hi : i ≤ n) :
    slice (letters n) i (n - i + 1) = List.replicate (n - i) 65 ++ [0] := by
  have hd : (letters n).drop i = List.replicate (n - i) 65 ++ [0] := by
    unfold letters lit
    rw [List.drop_append_of_le_length (by simp; exact hi), List.drop_replicate]
  unfold slice
  rw [hd, List.take_of_length_le (by simp)]

/-- The length of a string of `k` letters in a block that goes on. -/
theorem stringlength_letters_then (k : Nat) (tl : List Nat) :
    stringlength (List.replicate k 65 ++ 0 :: tl) = some (wrapInt k) := by
  rw [stringlength_eq _ (terminated_append_zero _ _),
    content_append_zero _ _ (by simp), List.length_replicate]

theorem lit_append_zero (s : List Nat) : lit (s ++ [0]) = s ++ 0 :: [0] := by
  simp [lit]

/-- On a string of `INT_MAX` letters the window `(1, INT_MAX)` passes the
range check, because `1 + INT_MAX` wraps, and its last element is the
terminator of the string. -/
theorem substring_letters_wrap (h : Heap) (n : Nat) (hn : (n : Int) = INT_MAX)
    (hg : h.grants (n + 1) = true) :
    substring h (letters n) 1 n = .ret ("", some (List.replicate (n - 1) 65 ++ 0 :: [0])) := by
  have hmaxv : INT_MAX = 2147483647 := rfl
  have hL : stringlength (letters n) = some (n : Int) := by
    rw [stringlength_letters, wrapInt_of_range _ (by unfold INT_MIN; omega) (by omega)]
  have hw2 : wrapInt (1 + (n : Int)) = -2147483648 := by
    unfold wrapInt
    omega
  have h1 : ((1 : Int)).toNat = 1 := rfl
  have h2 : ((n : Int)).toNat = n := Int.toNat_ofNat n
  have hres := substring_pass_eq h (letters n) 1 n n hL (by omega) (by omega)
    (by rw [hw2]; omega)
    (by rw [h1, h2, List.length_drop, length_letters]; omega) (by rw [h2]; exact hg)
  rw [h1, h2] at hres
  have hs : slice (letters n) 1 n = List.replicate (n - 1) 65 ++ [0] := by
    have := slice_letters_tail n 1 (by omega)
    rwa [show n - 1 + 1 = n by omega] at this
  rw [hres, hs, lit_append_zero]

/-- The two halves of a concatenation as windows of it. -/
theorem slice_lit_append (a b : List Nat) :
    slice (lit (a ++ b)) 0 a.length = a ∧ slice (lit (a ++ b)) a.length b.length = b := by
  unfold slice lit
  constructor
  · rw [List.drop_zero, List.append_assoc, List.take_left]
  · rw [List.append_assoc, List.drop_left, List.take_left]

/-- C11 at `substring(s, 1, 2147483647)` for `s` of `2147483647` letters: the
sum `1 + 2147483647` wraps, the call succeeds, and the block returned holds the
terminator of `s` as its last copied element, so its `stringlength` is
`2147483646`, not `len`. -/
theorem substring_length_overflow :
    stringlength (letters 2147483647) = some 2147483647 ∧
      ∃ r, substring (Heap.ample id) (letters 2147483647) 1 2147483647 = .ret ("", some r) ∧
        stringlength r = some 2147483646 :=
  ⟨(stringlength_letters 2147483647).trans rfl, _,
    substring_letters_wrap (Heap.ample id) 2147483647 rfl rfl,
    (stringlength_letters_then (2147483647 - 1) [0]).trans rfl⟩

/-- C16 at `substring("hello", 3, 2147483647)`: all three checks pass, because
`3 + 2147483647` wraps to `-2147483646`, yet the read at index `3 + 3` is
outside the six bytes of `"hello"`, the copy loop meets it whatever block it
writes to, and so the call is undefined behaviour on every heap. -/
theorem substring_read_overflow :
    stringlength hello = some 5 ∧
      ¬ ((3 : Int) < 0 ∨ (2147483647 : Int) < 0) ∧
      ¬ ((3 : Int) > wrapInt (5 - 1)) ∧
      ¬ ((3 : Int) > 5 - 1) ∧
      ¬ (wrapInt (3 + 2147483647) > 5) ∧
      hello[3 + 3]? = none ∧
      (∀ blk, copyLoop 2147483647 (hello.drop 3) blk 0 = none) ∧
      ∀ h, substring h hello 3 2147483647 = .undefined :=
  ⟨by decide, by decide, by decide, by decide, by decide, by decide,
    fun blk => copyLoop_short 2147483647 (hello.drop 3) blk 0 (by decide),
    fun h => substring_of_short h hello 3 2147483647 5 (by decide) (by decide) (by decide)
      (by decide) (by decide)⟩

/-- C17 fails for `a` of `2 ^ 31` letters and `b` empty: `stringlength(a)` is
`-2147483648`, and `substring(__throbac_cat(a, b), 0, stringlength(a))` is
rejected as a negative argument. -/
theorem substring_of_cat_long :
    content (letters 2147483648) ≠ [] ∧
      stringlength (letters 2147483648) = some (-2147483648) ∧
      ∃ r, __throbac_cat (Heap.ample id) (letters 2147483648) (lit []) = .ret r ∧
        substring (Heap.ample id) r 0 (-2147483648) = .ret (NegativeArgument, none) := by
  refine ⟨?_, (stringlength_letters 2147483648).trans rfl, _,
    throbac_cat_of_grants _ _ _ (terminated_letters _) (terminated_lit _) rfl,
    substring_of_negative _ _ _ _ (terminated_lit _) (by decide)⟩
  rw [content_letters]
  intro e
  have hlen := congrArg List.length e
  rw [List.length_replicate, List.length_nil] at hlen
  exact absurd hlen (by decide)

/-- C17, amended: for all strings `a` and `b` with at most `2 ^ 31 - 1` elements
between them, if `a` is non-empty then
`substring(__throbac_cat(a, b), 0, stringlength(a))` returns the content of `a`
and a terminator, and if `b` is non-empty then
`substring(__throbac_cat(a, b), stringlength(a), stringlength(b))` returns the
content of `b` and a terminator. -/
theorem substring_of_cat (junk : Nat → Nat) (a b : List Nat)
    (ha : Terminated a) (hb : Terminated b)
    (hsum : ((content a).length : Int) + (content b).length ≤ INT_MAX) :
    ∃ r la lb, __throbac_cat (Heap.ample junk) a b = .ret r ∧
      stringlength a = some la ∧ stringlength b = some lb ∧
      (content a ≠ [] →
        substring (Heap.ample junk) r 0 la = .ret ("", some (lit (content a)))) ∧
      (content b ≠ [] →
        substring (Heap.ample junk) r la lb = .ret ("", some (lit (content b)))) := by
  have hmaxv : INT_MAX = 2147483647 := rfl
  have hz : 0 ∉ content a ++ content b := by simp [zero_not_mem_content]
  have hL : stringlength (lit (content a ++ content b)) =
      some (((content a).length : Int) + (content b).length) := by
    rw [stringlength_of_le _ (terminated_lit _) (by rw [content_lit _ hz]; simpa using hsum),
      content_lit _ hz]
    simp
  obtain ⟨hs1, hs2⟩ := slice_lit_append (content a) (content b)
  refine ⟨_, _, _, throbac_cat_of_grants _ a b ha hb rfl,
    stringlength_of_le a ha (by omega), stringlength_of_le b hb (by omega), ?_, ?_⟩
  · intro hne
    have hpos : 0 < (content a).length := List.length_pos.2 hne
    have h := substring_of_grants (Heap.ample junk) _ 0 (content a).length _ hL
      (le_refl 0) (by omega) (by omega) (by omega) rfl
    rw [h]
    simp only [Int.toNat_zero, Int.toNat_ofNat, hs1]
  · intro hne
    have hpos : 0 < (content b).length := List.length_pos.2 hne
    have h := substring_of_grants (Heap.ample junk) _ (content a).length
      (content b).length _ hL (by omega) (by omega) (by omega) (by omega) rfl
    rw [h]
    simp only [Int.toNat_ofNat, hs2]

/-- C17 at `"hello"` and `"abc"`. -/
theorem substring_of_cat_witness :
    ∃ r la lb, __throbac_cat (Heap.ample id) hello abc = .ret r ∧
      stringlength hello = some la ∧ stringlength abc = some lb ∧
      (content hello ≠ [] →
        substring (Heap.ample id) r 0 la = .ret ("", some (lit (content hello)))) ∧
      (content abc ≠ [] →
        substring (Heap.ample id) r la lb = .ret ("", some (lit (content abc)))) :=
  substring_of_cat id hello abc (by decide) (by decide) (by decide)

/-! ## Reads and writes in a memory with one new object -/

theorem view_eq_some (m : Memory) (p : Pointer) (bytes : List Nat)
    (hv : view m p = some bytes) :
    ∃ o, m[p.obj]? = some o ∧ bytes = o.drop p.off ∧ p.obj < m.length := by
  unfold view at hv
  cases ho : m[p.obj]? with
  | none => simp [ho] at hv
  | some o =>
    simp only [ho, Option.some.injEq] at hv
    exact ⟨o, rfl, hv.symm, (List.getElem?_eq_some.1 ho).1⟩

/-- An object that a pointer sees is still seen with a new object behind. -/
theorem view_append (m : Memory) (blk : List Nat) (p : Pointer) (bytes : List Nat)
    (hv : view m p = some bytes) : view (m ++ [blk]) p = some bytes := by
  obtain ⟨o, ho, hb, hlt⟩ := view_eq_some m p bytes hv
  simp only [view, List.getElem?_append_left hlt, ho, hb]

theorem view_add (m : Memory) (p : Pointer) (bytes : List Nat) (n : Nat)
    (hv : view m p = some bytes) : view m (p.add n) = some (bytes.drop n) := by
  obtain ⟨o, ho, hb, -⟩ := view_eq_some m p bytes hv
  simp only [view, Pointer.add, ho, hb, List.drop_drop]

theorem load_of_view_cons (m : Memory) (blk : List Nat) (p : Pointer) (c : Nat)
    (rest : List Nat) (hv : view m p = some (c :: rest)) :
    load (m ++ [blk]) p = some c ∧ view m (p.add 1) = some rest := by
  obtain ⟨o, ho, hb, hlt⟩ := view_eq_some m p _ hv
  constructor
  · have h0 : (o.drop p.off)[0]? = some c := by rw [← hb]; simp
    rw [List.getElem?_drop] at h0
    simpa [load, List.getElem?_append_left hlt, ho] using h0
  · have := view_add m p _ 1 hv
    simpa using this

theorem load_of_view_nil (m : Memory) (blk : List Nat) (p : Pointer)
    (hv : view m p = some []) : load (m ++ [blk]) p = none := by
  obtain ⟨o, ho, hb, hlt⟩ := view_eq_some m p _ hv
  have hlen : o.length ≤ p.off := List.drop_eq_nil_iff.1 hb.symm
  simp [load, List.getElem?_append_left hlt, ho, List.getElem?_eq_none hlen]

/-- A write through a pointer into the new object changes that object only. -/
theorem store_fresh (m : Memory) (blk : List Nat) (k c : Nat) :
    store (m ++ [blk]) ⟨m.length, k⟩ c =
      if k < blk.length then some (m ++ [blk.set k c]) else none := by
  simp [store, List.set_append_right]

theorem view_fresh (m : Memory) (blk : List Nat) (k : Nat) :
    view (m ++ [blk]) ⟨m.length, k⟩ = some (blk.drop k) := by
  simp [view]

/-- The copy loop of `substring` in a memory does what it does on bytes, and
leaves every object but the new one as it was. -/
theorem copyLoopMem_eq (n : Nat) (m : Memory) (src : Pointer) (bytes blk : List Nat)
    (k : Nat) (hv : view m src = some bytes) :
    copyLoopMem n (m ++ [blk]) src ⟨m.length, k⟩ =
      (copyLoop n bytes blk k).map fun r => (m ++ [r.1], ⟨m.length, r.2⟩) := by
  induction n generalizing src bytes blk k with
  | zero => simp [copyLoopMem, copyLoop]
  | succ n ih =>
    cases bytes with
    | nil => simp [copyLoopMem, copyLoop, load_of_view_nil m blk src hv]
    | cons c rest =>
      obtain ⟨hl, hv1⟩ := load_of_view_cons m blk src c rest hv
      by_cases hk : k < blk.length
      · simp only [copyLoopMem, copyLoop, hl, store_fresh, hk, if_true]
        exact ih (src.add 1) rest (blk.set k c) (k + 1) hv1
      · simp [copyLoopMem, copyLoop, hl, store_fresh, hk]

/-- The byte loop of `strcpy` and `strcat` in a memory does what it does on
bytes, given iterations enough for the bytes left at `src`. -/
theorem copyStrMem_eq (fuel : Nat) (m : Memory) (src : Pointer) (bytes blk : List Nat)
    (k : Nat) (hv : view m src = some bytes) (hfuel : bytes.length < fuel) :
    copyStrMem fuel (m ++ [blk]) src ⟨m.length, k⟩ =
      (copyStr bytes blk k).map fun r => m ++ [r] := by
  induction fuel generalizing src bytes blk k with
  | zero => omega
  | succ fuel ih =>
    cases bytes with
    | nil => simp [copyStrMem, copyStr, load_of_view_nil m blk src hv]
    | cons c rest =>
      obtain ⟨hl, hv1⟩ := load_of_view_cons m blk src c rest hv
      have hrest : rest.length < fuel := by simpa using hfuel
      by_cases hk : k < blk.length
      · by_cases hc : c = 0
        · simp [copyStrMem, copyStr, hl, store_fresh, hk, hc]
        · simp only [copyStrMem, copyStr, hl, store_fresh, hk, if_true, hc, if_false]
          exact ih (src.add 1) rest (blk.set k c) (k + 1) hv1 hrest
      · simp [copyStrMem, copyStr, hl, store_fresh, hk]

theorem copyFuel_append (m : Memory) (blk : List Nat) (src : Pointer) (bytes : List Nat)
    (hv : view m src = some bytes) : copyFuel (m ++ [blk]) src = bytes.length + 1 := by
  simp [copyFuel, view_append m blk src bytes hv]

/-- The offset that the copy loop of `substring` ends at. -/
theorem copyLoop_offset (n : Nat) (src blk : List Nat) (k : Nat) (r : List Nat × Nat)
    (hr : copyLoop n src blk k = some r) : r.2 = k + n ∧ r.1.length = blk.length := by
  induction n generalizing src blk k with
  | zero =>
    simp only [copyLoop, Option.some.injEq] at hr
    subst hr
    simp
  | succ n ih =>
    cases src with
    | nil => simp [copyLoop] at hr
    | cons c rest =>
      by_cases hk : k < blk.length
      · simp only [copyLoop, hk, if_true] at hr
        have := ih rest (blk.set k c) (k + 1) hr
        simp only [List.length_set] at this
        omega
      · simp [copyLoop, hk] at hr

/-! ## The functions in a memory and on bytes agree -/

/-- In a memory `__throbac_cat` does what it does on the bytes its arguments
see; the only change to the memory is the new object. -/
theorem throbac_cat_mem_eq (h : Heap) (m : Memory) (first second : Pointer)
    (f s : List Nat) (hf : view m first = some f) (hs : view m second = some s) :
    __throbac_cat_mem h m first second = catInMemory m (__throbac_cat h f s) := by
  cases h1 : strlen f with
  | none => simp [__throbac_cat_mem, __throbac_cat, strlenMem, hf, h1, catInMemory]
  | some n1 =>
    cases h2 : strlen s with
    | none => simp [__throbac_cat_mem, __throbac_cat, strlenMem, hf, hs, h1, h2, catInMemory]
    | some n2 =>
      cases hm : malloc h (n1 + n2 + 1) with
      | none =>
        simp [__throbac_cat_mem, __throbac_cat, strlenMem, hf, hs, h1, h2, mallocMem, hm,
          catInMemory]
      | some value =>
        have hcpy : strcpyMem (m ++ [value]) ⟨m.length, 0⟩ first =
            (strcpy value f).map fun r => m ++ [r] := by
          unfold strcpyMem strcpy
          rw [copyFuel_append m value first f hf]
          exact copyStrMem_eq _ m first f value 0 hf (Nat.lt_succ_self _)
        cases hc1 : strcpy value f with
        | none =>
          rw [hc1] at hcpy
          simp [__throbac_cat_mem, __throbac_cat, strlenMem, hf, hs, h1, h2, mallocMem, hm,
            hcpy, hc1, catInMemory]
        | some value1 =>
          rw [hc1] at hcpy
          have hcat : strcatMem (m ++ [value1]) ⟨m.length, 0⟩ second =
              (strcat value1 s).map fun r => m ++ [r] := by
            unfold strcatMem strcat strlenMem
            rw [view_fresh, List.drop_zero]
            dsimp only
            cases hk : strlen value1 with
            | none => rfl
            | some k =>
              simp only [Pointer.add, Nat.zero_add]
              rw [copyFuel_append m value1 second s hs]
              exact copyStrMem_eq _ m second s value1 k hs (Nat.lt_succ_self _)
          cases hc2 : strcat value1 s with
          | none =>
            rw [hc2] at hcat
            simp [__throbac_cat_mem, __throbac_cat, strlenMem, hf, hs, h1, h2, mallocMem, hm,
              hcpy, hc1, hcat, hc2, catInMemory]
          | some value2 =>
            rw [hc2] at hcat
            simp [__throbac_cat_mem, __throbac_cat, strlenMem, hf, hs, h1, h2, mallocMem, hm,
              hcpy, hc1, hcat, hc2, catInMemory]

/-- In a memory `substring` does what it does on the bytes `str` sees; the
memory is unchanged when it returns `NULL`, and otherwise the only change is
the new object. -/
theorem substring_mem_eq (h : Heap) (m : Memory) (str : Pointer) (start len : Int)
    (bytes : List Nat) (hv : view m str = some bytes) :
    substring_mem h m str start len = substringInMemory m (substring h bytes start len) := by
  cases hL : stringlength bytes with
  | none => simp [substring_mem, substring, hv, hL, substringInMemory]
  | some L =>
    by_cases hc1 : start < 0 ∨ len < 0
    · simp only [substring_mem, substring, hv, hL, if_pos hc1, substringInMemory]
    · by_cases hc2 : start > L - 1
      · simp only [substring_mem, substring, hv, hL, if_neg hc1, if_pos hc2, substringInMemory]
      · by_cases hc3 : wrapInt (start + len) > L
        · simp only [substring_mem, substring, hv, hL, if_neg hc1, if_neg hc2, if_pos hc3,
            substringInMemory]
        · cases hm : malloc h (len.toNat + 1) with
          | none =>
            simp only [substring_mem, substring, hv, hL, if_neg hc1, if_neg hc2, if_neg hc3,
              mallocMem, hm, substringInMemory]
          | some subStr =>
            have hloop := copyLoopMem_eq len.toNat m (str.add start.toNat)
              (bytes.drop start.toNat) subStr 0 (view_add m str bytes _ hv)
            cases hc : copyLoop len.toNat (bytes.drop start.toNat) subStr 0 with
            | none =>
              rw [hc] at hloop
              simp only [substring_mem, substring, hv, hL, if_neg hc1, if_neg hc2, if_neg hc3,
                mallocMem, hm, hloop, hc, Option.map_none', substringInMemory]
            | some r =>
              obtain ⟨blk, k⟩ := r
              rw [hc] at hloop
              have hoff := (copyLoop_offset _ _ _ _ _ hc).1
              simp only [Nat.zero_add] at hoff
              subst hoff
              by_cases hk : len.toNat < blk.length
              · simp only [substring_mem, substring, hv, hL, if_neg hc1, if_neg hc2,
                  if_neg hc3, mallocMem, hm, hloop, hc, Option.map_some', store_fresh, hk,
                  if_true, substringInMemory, Pointer.sub, Nat.sub_self]
              · simp only [substring_mem, substring, hv, hL, if_neg hc1, if_neg hc2,
                  if_neg hc3, mallocMem, hm, hloop, hc, Option.map_some', store_fresh, hk,
                  if_false, substringInMemory]

/-- A call of `__throbac_cat` that returns was given pointers into objects. -/
theorem throbac_cat_mem_views (h : Heap) (m : Memory) (first second : Pointer)
    (r : Memory × Pointer) (hr : __throbac_cat_mem h m first second = .ret r) :
    ∃ f s, view m first = some f ∧ view m second = some s := by
  cases hf : view m first with
  | none =>
    cases h2 : strlenMem m second <;>
      simp [__throbac_cat_mem, strlenMem, hf, h2] at hr
  | some f =>
    cases hs : view m second with
    | none =>
      cases h1 : strlen f <;>
        simp [__throbac_cat_mem, strlenMem, hf, hs, h1] at hr
    | some s => exact ⟨f, s, rfl, rfl⟩

/-- A call of `substring` that returns was given a pointer into an object. -/
theorem substring_mem_view (h : Heap) (m : Memory) (str : Pointer) (start len : Int)
    (r : Memory × String × Option Pointer)
    (hr : substring_mem h m str start len = .ret r) : ∃ bytes, view m str = some bytes := by
  cases hv : view m str with
  | none => simp [substring_mem, hv] at hr
  | some bytes => exact ⟨bytes, rfl⟩

/-- C15: whenever `__throbac_cat` or `substring` returns, every object that
was in memory before the call, the inputs among them, holds the same bytes
after it; the pointer returned, unless it is `NULL`, is to the first byte of
one new object, which is none of the objects the inputs point into; and a call
of `substring` that returns `NULL` leaves the memory as it was. -/
theorem inputs_unmodified (h : Heap) (m : Memory) :
    (∀ first second m1 p, __throbac_cat_mem h m first second = .ret (m1, p) →
      (∃ blk, m1 = m ++ [blk]) ∧ (∀ i, i < m.length → m1[i]? = m[i]?) ∧
        p = ⟨m.length, 0⟩ ∧ p.obj ≠ first.obj ∧ p.obj ≠ second.obj) ∧
    (∀ str start len m1 msg r, substring_mem h m str start len = .ret (m1, msg, r) →
      (∀ i, i < m.length → m1[i]? = m[i]?) ∧
        ((r = none ∧ m1 = m) ∨
          (r = some ⟨m.length, 0⟩ ∧ (∃ blk, m1 = m ++ [blk]) ∧ m.length ≠ str.obj))) := by
  constructor
  · intro first second m1 p hr
    obtain ⟨f, s, hf, hs⟩ := throbac_cat_mem_views h m first second _ hr
    have hlt1 := (view_eq_some m first f hf).choose_spec.2.2
    have hlt2 := (view_eq_some m second s hs).choose_spec.2.2
    rw [throbac_cat_mem_eq h m first second f s hf hs] at hr
    cases hc : __throbac_cat h f s with
    | abort => simp [hc, catInMemory] at hr
    | undefined => simp [hc, catInMemory] at hr
    | ret blk =>
      simp only [hc, catInMemory, Outcome.ret.injEq, Prod.mk.injEq] at hr
      obtain ⟨hm1, hp⟩ := hr
      subst hm1 hp
      refine ⟨⟨blk, rfl⟩, fun i hi => List.getElem?_append_left hi, rfl, ?_, ?_⟩
      · exact Nat.ne_of_gt hlt1
      · exact Nat.ne_of_gt hlt2
  · intro str start len m1 msg r hr
    obtain ⟨bytes, hv⟩ := substring_mem_view h m str start len _ hr
    have hlt := (view_eq_some m str bytes hv).choose_spec.2.2
    rw [substring_mem_eq h m str start len bytes hv] at hr
    cases hc : substring h bytes start len with
    | abort => simp [hc, substringInMemory] at hr
    | undefined => simp [hc, substringInMemory] at hr
    | ret v =>
      obtain ⟨msg0, r0⟩ := v
      cases r0 with
      | none =>
        simp only [hc, substringInMemory, Outcome.ret.injEq, Prod.mk.injEq] at hr
        obtain ⟨hm1, -, hr0⟩ := hr
        subst hm1 hr0
        exact ⟨fun _ _ => rfl, Or.inl ⟨rfl, rfl⟩⟩
      | some blk =>
        simp only [hc, substringInMemory, Outcome.ret.injEq, Prod.mk.injEq] at hr
        obtain ⟨hm1, -, hr0⟩ := hr
        subst hm1 hr0
        exact ⟨fun i hi => List.getElem?_append_left hi,
          Or.inr ⟨rfl, ⟨blk, rfl⟩, Nat.ne_of_gt hlt⟩⟩

/-- C15 on a memory that holds `"hello"` and `"abc"`: a concatenation, a
substring that is returned, and one that is refused. -/
theorem inputs_unmodified_witness :
    ((∃ blk, twoStrings ++ [lit [104, 101, 108, 108, 111, 97, 98, 99]] = twoStrings ++ [blk]) ∧
      (∀ i, i < twoStrings.length →
        (twoStrings ++ [lit [104, 101, 108, 108, 111, 97, 98, 99]])[i]? = twoStrings[i]?) ∧
      (⟨2, 0⟩ : Pointer) = ⟨twoStrings.length, 0⟩ ∧
      (⟨2, 0⟩ : Pointer).obj ≠ (⟨0, 0⟩ : Pointer).obj ∧
      (⟨2, 0⟩ : Pointer).obj ≠ (⟨1, 0⟩ : Pointer).obj) ∧
    ((∀ i, i < twoStrings.length →
        (twoStrings ++ [lit [101, 108, 108]])[i]? = twoStrings[i]?) ∧
      (((some ⟨2, 0⟩ : Option Pointer) = none ∧
          twoStrings ++ [lit [101, 108, 108]] = twoStrings) ∨
        ((some ⟨2, 0⟩ : Option Pointer) = some ⟨twoStrings.length, 0⟩ ∧
          (∃ blk, twoStrings ++ [lit [101, 108, 108]] = twoStrings ++ [blk]) ∧
          twoStrings.length ≠ (⟨0, 0⟩ : Pointer).obj))) ∧
    substring_mem (Heap.ample id) twoStrings ⟨0, 0⟩ 5 0 =
      .ret (twoStrings, StartOutOfRange, none) :=
  ⟨(inputs_unmodified (Heap.ample id) twoStrings).1 ⟨0, 0⟩ ⟨1, 0⟩ _ _ (by decide),
    (inputs_unmodified (Heap.ample id) twoStrings).2 ⟨0, 0⟩ 1 3 _ "" _ (by decide),
    by decide⟩

/-! ## Windows inside the string -/

/-- Under the four conditions on `start` and `len` the block returned has
`stringlength` equal to `len`. -/
theorem substring_length_exact (str : List Nat) (start len L : Int)
    (hL : stringlength str = some L) (h0 : 0 ≤ start) (h1 : 0 ≤ len)
    (h2 : start ≤ L - 1) (h3 : start + len ≤ L) :
    stringlength (lit (slice str start.toNat len.toNat)) = some len := by
  have hstr := terminated_of_stringlength str L hL
  have hle := stringlength_le_content str L hL (by omega)
  have hlt := content_length_lt str hstr
  have hmax : L ≤ INT_MAX := by
    have := stringlength_eq str hstr
    rw [hL] at this
    rw [Option.some.inj this]
    exact (wrapInt_range _).2
  have hz := zero_not_mem_slice str hstr start.toNat len.toNat (by omega)
  have hlen := slice_length str start.toNat len.toNat (by omega)
  rw [stringlength_of_le _ (terminated_lit _) (by rw [content_lit _ hz, hlen]; omega),
    content_lit _ hz, hlen]
  congr 1
  omega

/-- A window of a window is a window of the string. -/
theorem slice_lit_slice (s : List Nat) (i n j k : Nat) (hn : i + n ≤ s.length)
    (hjk : j + k ≤ n) : slice (lit (slice s i n)) j k = slice s (i + j) k := by
  have hlen := slice_length s i n hn
  unfold lit
  unfold slice at hlen ⊢
  rw [List.drop_append_of_le_length (by omega), List.take_append_of_le_length (by simp; omega),
    List.drop_take, List.take_take, List.drop_drop, Nat.min_eq_left (by omega)]

/-- Substrings compose when both windows satisfy the four conditions. -/
theorem substring_compose_exact (junk : Nat → Nat) (s : List Nat) (i n j k L : Int)
    (hL : stringlength s = some L) (hi : 0 ≤ i) (hn : 0 ≤ n) (h2 : i ≤ L - 1)
    (h3 : i + n ≤ L) (hj : 0 ≤ j) (hk : 0 ≤ k) (h5 : j ≤ n - 1) (h6 : j + k ≤ n) :
    ∃ t u, substring (Heap.ample junk) s i n = .ret ("", some t) ∧
      substring (Heap.ample junk) t j k = .ret ("", some u) ∧
      substring (Heap.ample junk) s (i + j) k = .ret ("", some u) := by
  have hstr := terminated_of_stringlength s L hL
  have hle := stringlength_le_content s L hL (by omega)
  have hlt := content_length_lt s hstr
  have hLt := substring_length_exact s i n L hL hi hn h2 h3
  refine ⟨_, _, substring_of_grants _ s i n L hL hi hn h2 h3 rfl,
    substring_of_grants _ _ j k n hLt hj hk h5 h6 rfl, ?_⟩
  rw [substring_of_grants _ s (i + j) k L hL (by omega) hk (by omega) (by omega) rfl,
    slice_lit_slice s i.toNat n.toNat j.toNat k.toNat (by omega) (by omega),
    Int.toNat_add hi hj]

/-! ## Composition of substrings -/

end Throbac
